import Mathlib

set_option maxRecDepth 8000
set_option maxHeartbeats 1000000

/-!
Verification of the chunk-splitting core of the Speedread-Splitter program
(src/main.py). Texts are modelled as lists of characters, Python string
offsets as natural numbers, and the main while-loop of `split_book` as a
fuel-bounded state-stepping function producing the list of chunk spans with
their assigned day indices.
-/

/-- Word characters as classified by the Python regex class `\w`
(alphanumeric plus underscore, Unicode-aware), restricted to the scripts this
program meets: ASCII alphanumerics, underscore, and the Cyrillic block. -/
def isWordChar (c : Char) : Bool :=
  c.isAlphanum || c == '_' || (0x400 ≤ c.toNat && c.toNat ≤ 0x4FF)

/-- Maximal runs of word characters in a character list, as pairs of start
offset and end offset (end exclusive). This is what `re.finditer(r'\b\w+\b', s)`
yields on a string: the regex matches exactly the maximal word-character runs.
`i` is the offset of the head of the list; `run` is the start offset of the
currently open run, if any. -/
def wordRuns : List Char → Nat → Option Nat → List (Nat × Nat)
  | [], _, none => []
  | [], i, some s => [(s, i)]
  | c :: cs, i, none =>
      if isWordChar c then wordRuns cs (i + 1) (some i) else wordRuns cs (i + 1) none
  | c :: cs, i, some s =>
      if isWordChar c then wordRuns cs (i + 1) (some s)
      else (s, i) :: wordRuns cs (i + 1) none

/-- Word tokens of a text: the maximal word-character runs with their offsets. -/
def tokens (cs : List Char) : List (Nat × Nat) :=
  wordRuns cs 0 none

/-- The source's `count_words`: `len(re.findall(r'\b\w+\b', text))`. -/
def count_words (cs : List Char) : Nat :=
  (tokens cs).length

/-- Python slice `text[a:b]` for natural offsets (clamped at the ends). -/
def pySlice (cs : List Char) (a b : Nat) : List Char :=
  (cs.drop a).take (b - a)

/-- Python `str.strip()`: remove leading and trailing whitespace. -/
def pyStrip (cs : List Char) : List Char :=
  ((cs.dropWhile Char.isWhitespace).reverse.dropWhile Char.isWhitespace).reverse

/-- Occurrence test: does `pat` occur in `cs` at offset `j`? -/
def occursAt (cs pat : List Char) (j : Nat) : Bool :=
  pat.isPrefixOf (cs.drop j)

/-- Scan offsets `j, j+1, ...` (for `fuel` steps) for the first occurrence of
`pat` in `cs`. -/
def findFromAux (cs pat : List Char) : Nat → Nat → Option Nat
  | _, 0 => none
  | j, fuel + 1 => if occursAt cs pat j then some j else findFromAux cs pat (j + 1) fuel

/-- Python `text.find(pat, i)` for a nonempty `pat`: offset of the first
occurrence of `pat` at or after `i`, if any. -/
def findFrom (cs pat : List Char) (i : Nat) : Option Nat :=
  findFromAux cs pat i (cs.length + 1 - i)

/-- Word scan of the main loop of `split_book`: walk the word tokens of
`full_text[current_pos:]` in order, counting them and recording the relative
offset just after the last counted token, stopping as soon as the count
reaches the target (`if words_in_chunk >= words_per_chunk: break`).
Returns the pair (words_in_chunk, last relative token end). -/
def scanWords (target : Nat) : List (Nat × Nat) → Nat → Nat → Nat × Nat
  | [], n, e => (n, e)
  | t :: ts, n, _ =>
      if target ≤ n + 1 then (n + 1, t.2) else scanWords target ts (n + 1) t.2

/-- `words_in_chunk` of the loop body at cursor `pos`. -/
def words_in_chunk (text : List Char) (pos target : Nat) : Nat :=
  (scanWords target (tokens (text.drop pos)) 0 0).1

/-- `last_match_end` of the loop body at cursor `pos`: initialised to `pos`,
then `current_pos + match.end()` of the last counted token. -/
def last_match_end (text : List Char) (pos target : Nat) : Nat :=
  pos + (scanWords target (tokens (text.drop pos)) 0 0).2

/-- Candidate boundary of one snapping arm of the loop body: the first
occurrence of `pat` at or after `e`, accepted only when it starts within
100 characters of `e` (the code's `next != -1 and next < last_match_end + 100`). -/
def snapCandidate (text pat : List Char) (e : Nat) : Option Nat :=
  match findFrom text pat e with
  | some p => if p < e + 100 then some p else none
  | none => none

/-- Boundary snapping of the loop body: prefer the first paragraph break
(`"\n\n"`) within 100 characters of the raw cutoff, else the first sentence
break (`". "`) within the window, else the raw cutoff itself (hard cut).
Either accepted break contributes its two characters to the chunk. -/
def snapEnd (text : List Char) (e : Nat) : Nat :=
  match snapCandidate text ['\n', '\n'] e with
  | some p => p + 2
  | none =>
      match snapCandidate text ['.', ' '] e with
      | some d => d + 2
      | none => e

/-- `chunk_end` of the loop body at cursor `pos`. -/
def chunk_end (text : List Char) (pos target : Nat) : Nat :=
  snapEnd text (last_match_end text pos target)

/-- One produced chunk: its span `[start, stop)` of the document and the day
index its calendar date stands at (`current_date + date` days after day 0). -/
structure Chunk where
  start : Nat
  stop : Nat
  date : Nat
deriving DecidableEq

/-- Fuel-bounded model of the main while-loop of `split_book`: starting at
cursor `pos` on day index `d`, produce the chunks the loop writes, as spans
with day indices; `none` when the fuel runs out before the loop finishes. -/
def splitLoop (text : List Char) (target : Nat) : Nat → Nat → Nat → Option (List Chunk)
  | 0, _, _ => none
  | fuel + 1, pos, d =>
      if pos < text.length then
        if words_in_chunk text pos target = 0 then some []
        else
          if pyStrip (pySlice text pos (chunk_end text pos target)) = [] then some []
          else
            match splitLoop text target fuel (chunk_end text pos target) (d + 1) with
            | some rest => some (⟨pos, chunk_end text pos target, d⟩ :: rest)
            | none => none
      else some []

/-- Chunks produced by a run of `split_book` from initial cursor `pos` and
first day index `d`. The fuel `text.length + 1` is always sufficient, as the
cursor strictly advances on every produced chunk (scheduler termination). -/
def split_book_chunks (text : List Char) (target pos d : Nat) : List Chunk :=
  (splitLoop text target (text.length + 1) pos d).getD []

/-- Spans are contiguous starting at `s`: each chunk starts exactly where the
previous one stopped. -/
def chainFrom : Nat → List Chunk → Prop
  | _, [] => True
  | s, c :: cs => c.start = s ∧ chainFrom c.stop cs

/-- Final cursor after a run: the last chunk's stop offset, or `s` when no
chunk was produced. -/
def endPos (s : Nat) (cs : List Chunk) : Nat :=
  cs.foldl (fun _ c => c.stop) s

/-- Average chunk word count reported by `split_book`:
`total_words // chunk_count if chunk_count > 0 else 0`. -/
def avg_chunk_words (total_words chunk_count : Nat) : Nat :=
  if 0 < chunk_count then total_words / chunk_count else 0

/-- Python `str.replace(pat, '')` on a character list, structured on fuel;
fuel at least the length of the text makes it total, since every step
consumes at least one character. -/
def replaceAllAux (pat : List Char) : Nat → List Char → List Char
  | 0, s => s
  | fuel + 1, s =>
      match s with
      | [] => []
      | c :: cs =>
          if pat.isPrefixOf (c :: cs) then replaceAllAux pat fuel ((c :: cs).drop pat.length)
          else c :: replaceAllAux pat fuel cs

/-- Python `str.replace(pat, '')`: delete every (left-to-right,
non-overlapping) occurrence of `pat`. -/
def replaceAll (pat s : List Char) : List Char :=
  if pat = [] then s else replaceAllAux pat s.length s

/-- Decimal digit characters of `n`, as Python `str(n)`. -/
def natChars (n : Nat) : List Char :=
  (Nat.repr n).data

/-- The literal marker `[{i}]` removed by `clean_text`. -/
def refMarker (i : Nat) : List Char :=
  '[' :: (natChars i ++ [']'])

/-- The literal figure-caption marker `Рис. {i}. ` removed by `clean_text`. -/
def figMarker (i : Nat) : List Char :=
  "Рис. ".data ++ natChars i ++ ". ".data

/-- The literal table-caption marker `Таблица {i}. ` removed by `clean_text`. -/
def tableMarker (i : Nat) : List Char :=
  "Таблица ".data ++ natChars i ++ ". ".data

/-- The source's `clean_text`: for `i in range(1, 1000)`, globally delete the
reference marker, the figure-caption marker and the table-caption marker of
`i`, in that order, by literal replacement. -/
def clean_text (s : List Char) : List Char :=
  (List.range' 1 999).foldl
    (fun acc i =>
      replaceAll (tableMarker i) (replaceAll (figMarker i) (replaceAll (refMarker i) acc))) s

/-- All 2997 literal markers `clean_text` removes. -/
def markerStrings : List (List Char) :=
  ((List.range' 1 999).map (fun i => [refMarker i, figMarker i, tableMarker i])).flatten

/-- Substring occurrence test: `pat` occurs in `s` at some offset. -/
def containsSub (pat : List Char) : List Char → Bool
  | [] => pat.isPrefixOf []
  | c :: cs => pat.isPrefixOf (c :: cs) || containsSub pat cs

/-- Bounded-window variant of the boundary search, following the spec's words
for the refinement question: look only at the offsets inside the 100-character
window after the raw cutoff, and take the first hit there; paragraph break
first, then sentence break, else hard cut. -/
def snapEndBounded (text : List Char) (e : Nat) : Nat :=
  match (List.range' e 100).find? (fun j => occursAt text ['\n', '\n'] j) with
  | some p => p + 2
  | none =>
      match (List.range' e 100).find? (fun j => occursAt text ['.', ' '] j) with
      | some d => d + 2
      | none => e

/-- `chunk_end` computed with the upfront-bounded window search. -/
def chunk_end_bounded (text : List Char) (pos target : Nat) : Nat :=
  snapEndBounded text (last_match_end text pos target)

/-- The spec's end-to-end example text. -/
def exText : List Char :=
  "Alpha beta gamma. Delta epsilon.\n\nZeta eta theta iota.".data

/-- A text with no sentence or paragraph break at all. -/
def plainText : List Char :=
  "aaa bbb ccc ddd eee".data

/-- A text with no word token at all. -/
def dotsText : List Char :=
  "...".data

/-! ### Lemmas on word tokens and the word scan -/

theorem wordRuns_lt (cs : List Char) : ∀ (i : Nat) (o : Option Nat),
    (∀ s, o = some s → s < i) → ∀ p ∈ wordRuns cs i o, p.1 < p.2 := by
  induction cs with
  | nil =>
      intro i o ho p hp
      cases o with
      | none => simp [wordRuns] at hp
      | some s =>
          simp [wordRuns] at hp
          subst hp
          exact ho s rfl
  | cons c cs ih =>
      intro i o ho p hp
      cases o with
      | none =>
          by_cases hw : isWordChar c
          · rw [wordRuns, if_pos hw] at hp
            exact ih (i + 1) (some i) (by intro s hs; cases hs; omega) p hp
          · rw [wordRuns, if_neg hw] at hp
            exact ih (i + 1) none (by intro s hs; cases hs) p hp
      | some s =>
          by_cases hw : isWordChar c
          · rw [wordRuns, if_pos hw] at hp
            exact ih (i + 1) (some s) (by intro u hu; cases hu; have := ho s rfl; omega) p hp
          · rw [wordRuns, if_neg hw] at hp
            rcases List.mem_cons.mp hp with h | h
            · subst h
              exact ho s rfl
            · exact ih (i + 1) none (by intro u hu; cases hu) p h

theorem tokens_lt (cs : List Char) : ∀ p ∈ tokens cs, p.1 < p.2 :=
  wordRuns_lt cs 0 none (by intro s hs; cases hs)

theorem scanWords_nil (target n e : Nat) : scanWords target [] n e = (n, e) := rfl

theorem scanWords_snd_mem (target : Nat) :
    ∀ (ts : List (Nat × Nat)) (n e : Nat), ts ≠ [] →
      ∃ p ∈ ts, (scanWords target ts n e).2 = p.2 := by
  intro ts
  induction ts with
  | nil => intro n e h; exact absurd rfl h
  | cons t ts ih =>
      intro n e _
      by_cases h : target ≤ n + 1
      · exact ⟨t, List.mem_cons_self t ts, by rw [scanWords, if_pos h]⟩
      · cases ts with
        | nil =>
            exact ⟨t, List.mem_cons_self t [], by rw [scanWords, if_neg h, scanWords_nil]⟩
        | cons u us =>
            obtain ⟨p, hp, he⟩ := ih (n + 1) t.2 (by simp)
            exact ⟨p, List.mem_cons_of_mem t hp, by rw [scanWords, if_neg h]; exact he⟩

theorem scanWords_fst_pos (target : Nat) :
    ∀ (ts : List (Nat × Nat)) (n e : Nat), ts ≠ [] → n < (scanWords target ts n e).1 := by
  intro ts
  induction ts with
  | nil => intro n e h; exact absurd rfl h
  | cons t ts ih =>
      intro n e _
      by_cases h : target ≤ n + 1
      · rw [scanWords, if_pos h]; omega
      · cases ts with
        | nil => rw [scanWords, if_neg h, scanWords_nil]; omega
        | cons u us =>
            rw [scanWords, if_neg h]
            have := ih (n + 1) t.2 (by simp)
            omega

theorem words_in_chunk_eq_zero (text : List Char) (pos target : Nat) :
    words_in_chunk text pos target = 0 ↔ tokens (text.drop pos) = [] := by
  constructor
  · intro h
    by_contra hne
    have := scanWords_fst_pos target (tokens (text.drop pos)) 0 0 hne
    rw [words_in_chunk] at h
    omega
  · intro h
    rw [words_in_chunk, h, scanWords_nil]

theorem last_match_end_ge (text : List Char) (pos target : Nat) :
    pos ≤ last_match_end text pos target :=
  Nat.le_add_right pos _

theorem last_match_end_gt (text : List Char) (pos target : Nat)
    (h : words_in_chunk text pos target ≠ 0) :
    pos < last_match_end text pos target := by
  have htk : tokens (text.drop pos) ≠ [] := by
    intro hc
    exact h ((words_in_chunk_eq_zero text pos target).mpr hc)
  obtain ⟨p, hp, he⟩ := scanWords_snd_mem target (tokens (text.drop pos)) 0 0 htk
  have h1 : p.1 < p.2 := tokens_lt (text.drop pos) p hp
  rw [last_match_end, he]
  omega

/-! ### Lemmas on the forward literal search -/

theorem findFromAux_some (cs pat : List Char) :
    ∀ (fuel i j : Nat), findFromAux cs pat i fuel = some j →
      i ≤ j ∧ occursAt cs pat j = true ∧
        ∀ k, i ≤ k → k < j → occursAt cs pat k = false := by
  intro fuel
  induction fuel with
  | zero => intro i j h; simp [findFromAux] at h
  | succ fuel ih =>
      intro i j h
      by_cases ho : occursAt cs pat i
      · rw [findFromAux, if_pos ho] at h
        cases h
        exact ⟨Nat.le_refl i, ho, fun k hk1 hk2 => absurd hk1 (by omega)⟩
      · rw [findFromAux, if_neg ho] at h
        obtain ⟨h1, h2, h3⟩ := ih (i + 1) j h
        refine ⟨by omega, h2, ?_⟩
        intro k hk1 hk2
        rcases Nat.eq_or_lt_of_le hk1 with heq | hlt
        · rw [← heq]
          exact Bool.eq_false_iff.mpr ho
        · exact h3 k hlt hk2

theorem findFromAux_none (cs pat : List Char) :
    ∀ (fuel i : Nat), findFromAux cs pat i fuel = none →
      ∀ k, i ≤ k → k < i + fuel → occursAt cs pat k = false := by
  intro fuel
  induction fuel with
  | zero => intro i _ k _ _; omega
  | succ fuel ih =>
      intro i h k hk1 hk2
      by_cases ho : occursAt cs pat i
      · rw [findFromAux, if_pos ho] at h
        cases h
      · rw [findFromAux, if_neg ho] at h
        rcases Nat.eq_or_lt_of_le hk1 with heq | hlt
        · rw [← heq]
          exact Bool.eq_false_iff.mpr ho
        · exact ih (i + 1) h k hlt (by omega)

theorem occursAt_of_len_le (cs pat : List Char) (hp : pat ≠ []) (j : Nat)
    (hj : cs.length ≤ j) : occursAt cs pat j = false := by
  rw [occursAt, List.drop_eq_nil_of_le hj]
  cases pat with
  | nil => exact absurd rfl hp
  | cons c cs' => rfl

theorem findFrom_some (cs pat : List Char) (i j : Nat)
    (h : findFrom cs pat i = some j) :
    i ≤ j ∧ occursAt cs pat j = true ∧
      ∀ k, i ≤ k → k < j → occursAt cs pat k = false :=
  findFromAux_some cs pat _ i j h

theorem findFrom_none (cs pat : List Char) (hp : pat ≠ []) (i : Nat)
    (h : findFrom cs pat i = none) : ∀ k, i ≤ k → occursAt cs pat k = false := by
  intro k hk
  by_cases hlen : cs.length ≤ k
  · exact occursAt_of_len_le cs pat hp k hlen
  · exact findFromAux_none cs pat _ i h k hk (by omega)

theorem findFrom_of_occurs (cs pat : List Char) (hp : pat ≠ []) (i j : Nat)
    (hij : i ≤ j) (hocc : occursAt cs pat j = true) :
    ∃ p, findFrom cs pat i = some p ∧ p ≤ j := by
  cases hf : findFrom cs pat i with
  | none =>
      have := findFrom_none cs pat hp i hf j hij
      rw [hocc] at this
      cases this
  | some p =>
      refine ⟨p, rfl, ?_⟩
      by_contra hlt
      push_neg at hlt
      have := (findFrom_some cs pat i p hf).2.2 j hij hlt
      rw [hocc] at this
      cases this

/-! ### Lemmas on boundary snapping -/

theorem snapCandidate_some (text pat : List Char) (e p : Nat)
    (h : snapCandidate text pat e = some p) :
    e ≤ p ∧ p < e + 100 ∧ occursAt text pat p = true ∧
      ∀ k, e ≤ k → k < p → occursAt text pat k = false := by
  rw [snapCandidate] at h
  cases hf : findFrom text pat e with
  | none => rw [hf] at h; cases h
  | some q =>
      rw [hf] at h
      change (if q < e + 100 then some q else none) = some p at h
      by_cases hw : q < e + 100
      · rw [if_pos hw] at h
        have hqp : q = p := by injection h
        subst hqp
        obtain ⟨h1, h2, h3⟩ := findFrom_some text pat e q hf
        exact ⟨h1, hw, h2, h3⟩
      · rw [if_neg hw] at h
        cases h

theorem snapEnd_ge (text : List Char) (e : Nat) : e ≤ snapEnd text e := by
  rw [snapEnd]
  cases hp : snapCandidate text ['\n', '\n'] e with
  | some p =>
      show e ≤ p + 2
      have := (snapCandidate_some text _ e p hp).1
      omega
  | none =>
      cases hd : snapCandidate text ['.', ' '] e with
      | some d =>
          show e ≤ d + 2
          have := (snapCandidate_some text _ e d hd).1
          omega
      | none => exact Nat.le_refl e

theorem chunk_end_ge_last (text : List Char) (pos target : Nat) :
    last_match_end text pos target ≤ chunk_end text pos target :=
  snapEnd_ge text (last_match_end text pos target)

theorem chunk_end_ge (text : List Char) (pos target : Nat) :
    pos ≤ chunk_end text pos target :=
  Nat.le_trans (last_match_end_ge text pos target) (chunk_end_ge_last text pos target)

theorem chunk_end_gt (text : List Char) (pos target : Nat)
    (h : words_in_chunk text pos target ≠ 0) :
    pos < chunk_end text pos target :=
  Nat.lt_of_lt_of_le (last_match_end_gt text pos target h) (chunk_end_ge_last text pos target)

/-! ### Lemmas on the scheduler loop -/

theorem splitLoop_isSome (text : List Char) (target : Nat) :
    ∀ (fuel pos d : Nat), text.length - pos < fuel →
      (splitLoop text target fuel pos d).isSome = true := by
  intro fuel
  induction fuel with
  | zero => intro pos d h; omega
  | succ fuel ih =>
      intro pos d h
      rw [splitLoop]
      by_cases h1 : pos < text.length
      · rw [if_pos h1]
        by_cases h2 : words_in_chunk text pos target = 0
        · rw [if_pos h2]; rfl
        · rw [if_neg h2]
          by_cases h3 : pyStrip (pySlice text pos (chunk_end text pos target)) = []
          · rw [if_pos h3]; rfl
          · rw [if_neg h3]
            have hgt : pos < chunk_end text pos target := chunk_end_gt text pos target h2
            have hrec := ih (chunk_end text pos target) (d + 1) (by omega)
            cases hr : splitLoop text target fuel (chunk_end text pos target) (d + 1) with
            | none => rw [hr] at hrec; cases hrec
            | some rest => rfl
      · rw [if_neg h1]; rfl

theorem splitLoop_fuel_irrel (text : List Char) (target : Nat) :
    ∀ (fuel1 fuel2 pos d : Nat), text.length - pos < fuel1 → text.length - pos < fuel2 →
      splitLoop text target fuel1 pos d = splitLoop text target fuel2 pos d := by
  intro fuel1
  induction fuel1 with
  | zero => intro fuel2 pos d h1 _; omega
  | succ f1 ih =>
      intro fuel2 pos d h1 h2
      cases fuel2 with
      | zero => omega
      | succ f2 =>
          rw [splitLoop, splitLoop]
          by_cases hp : pos < text.length
          · rw [if_pos hp, if_pos hp]
            by_cases hw : words_in_chunk text pos target = 0
            · rw [if_pos hw, if_pos hw]
            · rw [if_neg hw, if_neg hw]
              by_cases hs : pyStrip (pySlice text pos (chunk_end text pos target)) = []
              · rw [if_pos hs, if_pos hs]
              · rw [if_neg hs, if_neg hs]
                have hgt : pos < chunk_end text pos target := chunk_end_gt text pos target hw
                rw [ih f2 (chunk_end text pos target) (d + 1) (by omega) (by omega)]
          · rw [if_neg hp, if_neg hp]

theorem split_book_chunks_eq (text : List Char) (target pos d : Nat) :
    split_book_chunks text target pos d =
      if pos < text.length then
        if words_in_chunk text pos target = 0 then []
        else
          if pyStrip (pySlice text pos (chunk_end text pos target)) = [] then []
          else
            ⟨pos, chunk_end text pos target, d⟩ ::
              split_book_chunks text target (chunk_end text pos target) (d + 1)
      else [] := by
  rw [split_book_chunks, splitLoop]
  by_cases hp : pos < text.length
  · rw [if_pos hp, if_pos hp]
    by_cases hw : words_in_chunk text pos target = 0
    · rw [if_pos hw, if_pos hw]; rfl
    · rw [if_neg hw, if_neg hw]
      by_cases hs : pyStrip (pySlice text pos (chunk_end text pos target)) = []
      · rw [if_pos hs, if_pos hs]; rfl
      · rw [if_neg hs, if_neg hs]
        have hgt : pos < chunk_end text pos target := chunk_end_gt text pos target hw
        have hirr := splitLoop_fuel_irrel text target text.length (text.length + 1)
          (chunk_end text pos target) (d + 1) (by omega) (by omega)
        have hsome := splitLoop_isSome text target (text.length + 1)
          (chunk_end text pos target) (d + 1) (by omega)
        rw [hirr]
        cases hr : splitLoop text target (text.length + 1) (chunk_end text pos target) (d + 1) with
        | none => rw [hr] at hsome; cases hsome
        | some rest => rw [split_book_chunks, hr]; rfl
  · rw [if_neg hp, if_neg hp]; rfl

/-! ### Structural invariants of a run -/

theorem pySlice_append (t : List Char) (a b c : Nat) (hab : a ≤ b) (hbc : b ≤ c) :
    pySlice t a b ++ pySlice t b c = pySlice t a c := by
  rw [pySlice, pySlice, pySlice]
  have hdrop : t.drop b = (t.drop a).drop (b - a) := by
    rw [List.drop_drop]
    congr 1
    omega
  rw [hdrop]
  have hsum : c - a = (b - a) + (c - b) := by omega
  rw [hsum, List.take_add]

theorem chunks_chain_aux (text : List Char) (target : Nat) :
    ∀ (m pos d : Nat), text.length - pos ≤ m →
      chainFrom pos (split_book_chunks text target pos d) := by
  intro m
  induction m with
  | zero =>
      intro pos d h
      rw [split_book_chunks_eq, if_neg (by omega)]
      trivial
  | succ m ih =>
      intro pos d h
      rw [split_book_chunks_eq]
      by_cases hp : pos < text.length
      · rw [if_pos hp]
        by_cases hw : words_in_chunk text pos target = 0
        · rw [if_pos hw]; trivial
        · rw [if_neg hw]
          by_cases hs : pyStrip (pySlice text pos (chunk_end text pos target)) = []
          · rw [if_pos hs]; trivial
          · rw [if_neg hs]
            have hgt := chunk_end_gt text pos target hw
            exact ⟨rfl, ih (chunk_end text pos target) (d + 1) (by omega)⟩
      · rw [if_neg hp]; trivial

theorem chunks_chain (text : List Char) (target pos d : Nat) :
    chainFrom pos (split_book_chunks text target pos d) :=
  chunks_chain_aux text target (text.length - pos) pos d (Nat.le_refl _)

theorem endPos_cons (s : Nat) (c : Chunk) (cs : List Chunk) :
    endPos s (c :: cs) = endPos c.stop cs := rfl

theorem endPos_ge_aux (text : List Char) (target : Nat) :
    ∀ (m pos d : Nat), text.length - pos ≤ m →
      pos ≤ endPos pos (split_book_chunks text target pos d) := by
  intro m
  induction m with
  | zero =>
      intro pos d h
      rw [split_book_chunks_eq, if_neg (by omega)]
      exact Nat.le_refl pos
  | succ m ih =>
      intro pos d h
      rw [split_book_chunks_eq]
      by_cases hp : pos < text.length
      · rw [if_pos hp]
        by_cases hw : words_in_chunk text pos target = 0
        · rw [if_pos hw]; exact Nat.le_refl pos
        · rw [if_neg hw]
          by_cases hs : pyStrip (pySlice text pos (chunk_end text pos target)) = []
          · rw [if_pos hs]; exact Nat.le_refl pos
          · rw [if_neg hs]
            have hgt := chunk_end_gt text pos target hw
            rw [endPos_cons]
            exact Nat.le_trans (Nat.le_of_lt hgt)
              (ih (chunk_end text pos target) (d + 1) (by omega))
      · rw [if_neg hp]; exact Nat.le_refl pos

theorem chunks_cover_aux (text : List Char) (target : Nat) :
    ∀ (m pos d : Nat), text.length - pos ≤ m →
      ((split_book_chunks text target pos d).map (fun c => pySlice text c.start c.stop)).flatten
        = pySlice text pos (endPos pos (split_book_chunks text target pos d)) := by
  intro m
  induction m with
  | zero =>
      intro pos d h
      rw [split_book_chunks_eq, if_neg (by omega)]
      simp [pySlice, endPos]
  | succ m ih =>
      intro pos d h
      rw [split_book_chunks_eq]
      by_cases hp : pos < text.length
      · rw [if_pos hp]
        by_cases hw : words_in_chunk text pos target = 0
        · rw [if_pos hw]; simp [pySlice, endPos]
        · rw [if_neg hw]
          by_cases hs : pyStrip (pySlice text pos (chunk_end text pos target)) = []
          · rw [if_pos hs]; simp [pySlice, endPos]
          · rw [if_neg hs]
            have hgt := chunk_end_gt text pos target hw
            rw [List.map_cons, List.flatten_cons, endPos_cons]
            rw [ih (chunk_end text pos target) (d + 1) (by omega)]
            exact pySlice_append text pos (chunk_end text pos target) _
              (by omega) (endPos_ge_aux text target m (chunk_end text pos target) (d + 1) (by omega))
      · rw [if_neg hp]; simp [pySlice, endPos]

theorem chunks_date_aux (text : List Char) (target : Nat) :
    ∀ (m pos d i : Nat), text.length - pos ≤ m →
      i < (split_book_chunks text target pos d).length →
      ((split_book_chunks text target pos d).getD i ⟨0, 0, 0⟩).date = d + i := by
  intro m
  induction m with
  | zero =>
      intro pos d i h hi
      rw [split_book_chunks_eq, if_neg (by omega)] at hi
      simp at hi
  | succ m ih =>
      intro pos d i h hi
      rw [split_book_chunks_eq] at hi ⊢
      by_cases hp : pos < text.length
      · rw [if_pos hp] at hi ⊢
        by_cases hw : words_in_chunk text pos target = 0
        · rw [if_pos hw] at hi; simp at hi
        · rw [if_neg hw] at hi ⊢
          by_cases hs : pyStrip (pySlice text pos (chunk_end text pos target)) = []
          · rw [if_pos hs] at hi; simp at hi
          · rw [if_neg hs] at hi ⊢
            have hgt := chunk_end_gt text pos target hw
            cases i with
            | zero => rfl
            | succ i =>
                rw [List.getD_cons_succ]
                rw [List.length_cons] at hi
                have := ih (chunk_end text pos target) (d + 1) i (by omega) (by omega)
                omega
      · rw [if_neg hp] at hi; simp at hi

theorem chunks_start_lt_stop_aux (text : List Char) (target : Nat) :
    ∀ (m pos d : Nat), text.length - pos ≤ m →
      ∀ c ∈ split_book_chunks text target pos d, c.start < c.stop := by
  intro m
  induction m with
  | zero =>
      intro pos d h c hc
      rw [split_book_chunks_eq, if_neg (by omega)] at hc
      simp at hc
  | succ m ih =>
      intro pos d h c hc
      rw [split_book_chunks_eq] at hc
      by_cases hp : pos < text.length
      · rw [if_pos hp] at hc
        by_cases hw : words_in_chunk text pos target = 0
        · rw [if_pos hw] at hc; simp at hc
        · rw [if_neg hw] at hc
          by_cases hs : pyStrip (pySlice text pos (chunk_end text pos target)) = []
          · rw [if_pos hs] at hc; simp at hc
          · rw [if_neg hs] at hc
            have hgt := chunk_end_gt text pos target hw
            rcases List.mem_cons.mp hc with hh | hh
            · subst hh; exact hgt
            · exact ih (chunk_end text pos target) (d + 1) (by omega) c hh
      · rw [if_neg hp] at hc; simp at hc

theorem chunks_stop_cond_aux (text : List Char) (target : Nat) :
    ∀ (m pos d : Nat), text.length - pos ≤ m →
      ¬ endPos pos (split_book_chunks text target pos d) < text.length
      ∨ words_in_chunk text (endPos pos (split_book_chunks text target pos d)) target = 0
      ∨ pyStrip (pySlice text (endPos pos (split_book_chunks text target pos d))
          (chunk_end text (endPos pos (split_book_chunks text target pos d)) target)) = [] := by
  intro m
  induction m with
  | zero =>
      intro pos d h
      rw [split_book_chunks_eq, if_neg (by omega)]
      left
      show ¬ endPos pos [] < text.length
      rw [endPos]
      simp
      omega
  | succ m ih =>
      intro pos d h
      rw [split_book_chunks_eq]
      by_cases hp : pos < text.length
      · by_cases hw : words_in_chunk text pos target = 0
        · rw [if_pos hp, if_pos hw]
          right; left
          exact hw
        · by_cases hs : pyStrip (pySlice text pos (chunk_end text pos target)) = []
          · rw [if_pos hp, if_neg hw, if_pos hs]
            right; right
            exact hs
          · rw [if_pos hp, if_neg hw, if_neg hs]
            have hgt := chunk_end_gt text pos target hw
            rw [endPos_cons]
            exact ih (chunk_end text pos target) (d + 1) (by omega)
      · rw [if_neg hp]
        left
        show ¬ endPos pos [] < text.length
        rw [endPos]
        simpa using hp

/-! ### Lemmas on the normalizer -/

theorem replaceAllAux_id (pat : List Char) :
    ∀ (fuel : Nat) (s : List Char), containsSub pat s = false →
      replaceAllAux pat fuel s = s := by
  intro fuel
  induction fuel with
  | zero => intro s _; rfl
  | succ fuel ih =>
      intro s h
      cases s with
      | nil => rfl
      | cons c cs =>
          rw [containsSub] at h
          obtain ⟨h1, h2⟩ := Bool.or_eq_false_iff.mp h
          rw [replaceAllAux]
          simp only [h1, Bool.false_eq_true, if_false]
          rw [ih cs h2]

theorem replaceAll_id (pat s : List Char) (h : containsSub pat s = false) :
    replaceAll pat s = s := by
  rw [replaceAll]
  by_cases hp : pat = []
  · rw [if_pos hp]
  · rw [if_neg hp]
    exact replaceAllAux_id pat s.length s h

theorem marker_mem_ref (i : Nat) (hi : i ∈ List.range' 1 999) :
    refMarker i ∈ markerStrings := by
  rw [markerStrings, List.mem_flatten]
  exact ⟨[refMarker i, figMarker i, tableMarker i], List.mem_map_of_mem _ hi, by simp⟩

theorem marker_mem_fig (i : Nat) (hi : i ∈ List.range' 1 999) :
    figMarker i ∈ markerStrings := by
  rw [markerStrings, List.mem_flatten]
  exact ⟨[refMarker i, figMarker i, tableMarker i], List.mem_map_of_mem _ hi, by simp⟩

theorem marker_mem_table (i : Nat) (hi : i ∈ List.range' 1 999) :
    tableMarker i ∈ markerStrings := by
  rw [markerStrings, List.mem_flatten]
  exact ⟨[refMarker i, figMarker i, tableMarker i], List.mem_map_of_mem _ hi, by simp⟩

theorem foldl_clean_id (s : List Char) :
    ∀ l : List Nat,
      (∀ i ∈ l, containsSub (refMarker i) s = false ∧ containsSub (figMarker i) s = false ∧
        containsSub (tableMarker i) s = false) →
      l.foldl (fun acc i =>
        replaceAll (tableMarker i)
          (replaceAll (figMarker i) (replaceAll (refMarker i) acc))) s = s := by
  intro l
  induction l with
  | nil => intro _; rfl
  | cons a l ih =>
      intro hmem
      obtain ⟨h1, h2, h3⟩ := hmem a (List.mem_cons_self a l)
      rw [List.foldl_cons, replaceAll_id _ _ h1, replaceAll_id _ _ h2, replaceAll_id _ _ h3]
      exact ih (fun i hi => hmem i (List.mem_cons_of_mem a hi))

theorem clean_text_fixed (s : List Char)
    (h : ∀ m ∈ markerStrings, containsSub m s = false) : clean_text s = s := by
  rw [clean_text]
  exact foldl_clean_id s (List.range' 1 999)
    (fun i hi =>
      ⟨h _ (marker_mem_ref i hi), h _ (marker_mem_fig i hi), h _ (marker_mem_table i hi)⟩)

/-! ### Equivalence of the unbounded search with an upfront-bounded window search -/

theorem find_range'_of (e n j : Nat) (p : Nat → Bool) (h1 : e ≤ j) (h2 : j < e + n)
    (h3 : p j = true) (h4 : ∀ k, e ≤ k → k < j → p k = false) :
    (List.range' e n).find? p = some j := by
  induction n generalizing e with
  | zero => omega
  | succ n ih =>
      rw [List.range'_succ]
      rcases Nat.eq_or_lt_of_le h1 with heq | hlt
      · subst heq
        exact List.find?_cons_of_pos _ h3
      · have hpe : p e = false := h4 e (Nat.le_refl e) hlt
        rw [List.find?_cons_of_neg _ (by simp [hpe])]
        exact ih (e + 1) hlt (by omega) (fun k hk1 hk2 => h4 k (by omega) hk2)

theorem snapCandidate_eq_window (text pat : List Char) (hp : pat ≠ []) (e : Nat) :
    snapCandidate text pat e = (List.range' e 100).find? (fun j => occursAt text pat j) := by
  rw [snapCandidate]
  cases hf : findFrom text pat e with
  | none =>
      have hall := findFrom_none text pat hp e hf
      symm
      rw [List.find?_eq_none]
      intro j hj
      have hjr := List.mem_range'_1.mp hj
      simp [hall j hjr.1]
  | some p =>
      obtain ⟨h1, h2, h3⟩ := findFrom_some text pat e p hf
      show (if p < e + 100 then some p else none)
        = (List.range' e 100).find? (fun j => occursAt text pat j)
      by_cases hw : p < e + 100
      · rw [if_pos hw]
        symm
        exact find_range'_of e 100 p _ h1 hw h2 h3
      · rw [if_neg hw]
        symm
        rw [List.find?_eq_none]
        intro j hj
        have hjr := List.mem_range'_1.mp hj
        simp [h3 j hjr.1 (by omega)]

theorem snapEnd_eq_bounded (text : List Char) (e : Nat) :
    snapEnd text e = snapEndBounded text e := by
  rw [snapEnd, snapEndBounded]
  rw [snapCandidate_eq_window text ['\n', '\n'] (by simp) e]
  rw [snapCandidate_eq_window text ['.', ' '] (by simp) e]

/-! ### Concrete evaluation of the normalizer -/

theorem refMarker_cons (i : Nat) : refMarker i = '[' :: (natChars i ++ [']']) := rfl

theorem figMarker_cons (i : Nat) :
    figMarker i = 'Р' :: ("ис. ".data ++ natChars i ++ ". ".data) := rfl

theorem tableMarker_cons (i : Nat) :
    tableMarker i = 'Т' :: ("аблица ".data ++ natChars i ++ ". ".data) := rfl

theorem isPrefixOf_head_ne (c a : Char) (pat s : List Char) (h : (c == a) = false) :
    (c :: pat).isPrefixOf (a :: s) = false := by
  simp [List.isPrefixOf, h]

theorem containsSub_head_not_mem (c : Char) (pat : List Char) :
    ∀ s : List Char, c ∉ s → containsSub (c :: pat) s = false := by
  intro s
  induction s with
  | nil => intro _; rfl
  | cons a as ih =>
      intro h
      rw [containsSub]
      apply Bool.or_eq_false_iff.mpr
      constructor
      · apply isPrefixOf_head_ne
        apply beq_eq_false_iff_ne.mpr
        intro he
        exact h (he ▸ List.mem_cons_self a as)
      · exact ih (fun hmem => h (List.mem_cons_of_mem a hmem))

theorem markerStrings_elim (m : List Char) (hm : m ∈ markerStrings) :
    ∃ i, m = refMarker i ∨ m = figMarker i ∨ m = tableMarker i := by
  rw [markerStrings, List.mem_flatten] at hm
  obtain ⟨l, hl, hml⟩ := hm
  rw [List.mem_map] at hl
  obtain ⟨i, _, rfl⟩ := hl
  simp only [List.mem_cons, List.mem_singleton, List.not_mem_nil, or_false] at hml
  rcases hml with h | h | h
  · exact ⟨i, Or.inl h⟩
  · exact ⟨i, Or.inr (Or.inl h)⟩
  · exact ⟨i, Or.inr (Or.inr h)⟩

theorem containsSub_marker_nil (m : List Char) (hm : m ∈ markerStrings) :
    containsSub m [] = false := by
  obtain ⟨i, h | h | h⟩ := markerStrings_elim m hm
  · rw [h, refMarker_cons]; rfl
  · rw [h, figMarker_cons]; rfl
  · rw [h, tableMarker_cons]; rfl

theorem clean_text_nil : clean_text [] = [] :=
  clean_text_fixed [] (fun m hm => containsSub_marker_nil m hm)

theorem toDigitsCore_len_pos (b f n : Nat) :
    1 ≤ (Nat.toDigitsCore b (f + 1) n []).length := by
  rw [show Nat.toDigitsCore b (f + 1) n []
      = if n / b = 0 then [Nat.digitChar (n % b)]
        else Nat.toDigitsCore b f (n / b) [Nat.digitChar (n % b)] from rfl]
  by_cases hd : n / b = 0
  · rw [if_pos hd]
    simp
  · rw [if_neg hd, Nat.toDigitsCore_lens_eq]
    omega

theorem natChars_length_two (i : Nat) (h : 10 ≤ i) : 2 ≤ (natChars i).length := by
  obtain ⟨f, rfl⟩ : ∃ f, i = f + 1 := ⟨i - 1, by omega⟩
  have hd : (f + 1) / 10 ≠ 0 := by
    intro hc
    have := (Nat.div_eq_zero_iff (by omega)).mp hc
    omega
  show 2 ≤ (Nat.toDigitsCore 10 (f + 1 + 1) (f + 1) []).length
  rw [show Nat.toDigitsCore 10 (f + 1 + 1) (f + 1) []
      = if (f + 1) / 10 = 0 then [Nat.digitChar ((f + 1) % 10)]
        else Nat.toDigitsCore 10 (f + 1) ((f + 1) / 10) [Nat.digitChar ((f + 1) % 10)] from rfl]
  rw [if_neg hd, Nat.toDigitsCore_lens_eq]
  have := toDigitsCore_len_pos 10 f ((f + 1) / 10)
  omega

theorem natChars_ne_one (i : Nat) (h : 2 ≤ i) : natChars i ≠ ['1'] := by
  by_cases h10 : 10 ≤ i
  · intro he
    have h2 := natChars_length_two i h10
    rw [he] at h2
    simp at h2
  · have h9 : i ≤ 9 := by omega
    interval_cases i <;> decide

theorem containsSub_bracket (pat : List Char) :
    containsSub pat ['[', '1', ']']
      = (pat.isPrefixOf ['[', '1', ']'] || (pat.isPrefixOf ['1', ']'] ||
          (pat.isPrefixOf [']'] || pat.isPrefixOf []))) := rfl

theorem refMarker_not_in_bracket1 (i : Nat) (h : 2 ≤ i) :
    containsSub (refMarker i) ['[', '1', ']'] = false := by
  rw [containsSub_bracket]
  have t1 : (refMarker i).isPrefixOf ['1', ']'] = false := by
    rw [refMarker_cons]
    exact isPrefixOf_head_ne '[' '1' _ _ (by decide)
  have t2 : (refMarker i).isPrefixOf [']'] = false := by
    rw [refMarker_cons]
    exact isPrefixOf_head_ne '[' ']' _ _ (by decide)
  have t3 : (refMarker i).isPrefixOf ([] : List Char) = false := by
    rw [refMarker_cons]
    rfl
  have t0 : (refMarker i).isPrefixOf ['[', '1', ']'] = false := by
    rw [refMarker_cons]
    cases hnc : natChars i with
    | nil => decide
    | cons c tail =>
        cases tail with
        | nil =>
            have hne := natChars_ne_one i h
            rw [hnc] at hne
            apply Bool.eq_false_iff.mpr
            intro hpf
            have hpre := List.isPrefixOf_iff_prefix.mp hpf
            have heq : ('[' :: ([c] ++ [']'])) = ['[', '1', ']'] :=
              List.IsPrefix.eq_of_length hpre (by simp)
            have hc : c = '1' := by
              injection heq with _ h2
              injection h2 with hc _
            exact hne (by rw [hc])
        | cons d tail2 =>
            apply Bool.eq_false_iff.mpr
            intro hpf
            have hpre := List.isPrefixOf_iff_prefix.mp hpf
            have hlen := hpre.length_le
            simp at hlen
  rw [t0, t1, t2, t3]
  rfl

theorem clean_text_step (s : List Char) :
    clean_text s = (List.range' 2 998).foldl
      (fun acc i =>
        replaceAll (tableMarker i)
          (replaceAll (figMarker i) (replaceAll (refMarker i) acc)))
      (replaceAll (tableMarker 1) (replaceAll (figMarker 1) (replaceAll (refMarker 1) s))) := by
  have hr : List.range' 1 999 = 1 :: List.range' 2 998 := List.range'_succ 1 998 1
  rw [clean_text, hr, List.foldl_cons]

theorem bracket1_markers_absent (i : Nat) (hi : i ∈ List.range' 2 998) :
    containsSub (refMarker i) ['[', '1', ']'] = false ∧
    containsSub (figMarker i) ['[', '1', ']'] = false ∧
    containsSub (tableMarker i) ['[', '1', ']'] = false := by
  have h2 : 2 ≤ i := (List.mem_range'_1.mp hi).1
  refine ⟨refMarker_not_in_bracket1 i h2, ?_, ?_⟩
  · rw [figMarker_cons]
    exact containsSub_head_not_mem 'Р' _ _ (by decide)
  · rw [tableMarker_cons]
    exact containsSub_head_not_mem 'Т' _ _ (by decide)

theorem clean_text_bracket_pair : clean_text "[[1]1]".data = ['[', '1', ']'] := by
  rw [clean_text_step]
  have h1 : replaceAll (tableMarker 1)
      (replaceAll (figMarker 1) (replaceAll (refMarker 1) "[[1]1]".data))
      = ['[', '1', ']'] := by decide
  rw [h1]
  exact foldl_clean_id ['[', '1', ']'] (List.range' 2 998) bracket1_markers_absent

theorem clean_text_bracket1 : clean_text ['[', '1', ']'] = [] := by
  rw [clean_text_step]
  have h1 : replaceAll (tableMarker 1)
      (replaceAll (figMarker 1) (replaceAll (refMarker 1) ['[', '1', ']'])) = [] := by decide
  rw [h1]
  exact foldl_clean_id [] (List.range' 2 998)
    (fun i hi =>
      ⟨containsSub_marker_nil _ (marker_mem_ref i (by
          have := List.mem_range'_1.mp hi
          exact List.mem_range'_1.mpr (by omega))),
       containsSub_marker_nil _ (marker_mem_fig i (by
          have := List.mem_range'_1.mp hi
          exact List.mem_range'_1.mpr (by omega))),
       containsSub_marker_nil _ (marker_mem_table i (by
          have := List.mem_range'_1.mp hi
          exact List.mem_range'_1.mpr (by omega)))⟩)

/-! ### Claim theorems -/

/-- Claim C3: boundary precedence. Whenever both a paragraph break and a
sentence break occur within the 100-character window after the raw word-count
cutoff, the segmenter snaps the chunk end to the first paragraph break plus
two, even when the sentence break lies nearer to the cutoff. -/
theorem boundary_precedence (text : List Char) (s k : Nat)
    (hp : ∃ j, last_match_end text s k ≤ j ∧ j < last_match_end text s k + 100 ∧
      occursAt text ['\n', '\n'] j = true)
    (hd : ∃ j, last_match_end text s k ≤ j ∧ j < last_match_end text s k + 100 ∧
      occursAt text ['.', ' '] j = true) :
    ∃ p, findFrom text ['\n', '\n'] (last_match_end text s k) = some p ∧
      p < last_match_end text s k + 100 ∧ chunk_end text s k = p + 2 := by
  obtain ⟨j, hj1, hj2, hj3⟩ := hp
  obtain ⟨p, hfp, hple⟩ := findFrom_of_occurs text ['\n', '\n'] (by simp)
    (last_match_end text s k) j hj1 hj3
  have hpw : p < last_match_end text s k + 100 := by omega
  refine ⟨p, hfp, hpw, ?_⟩
  have hc : snapCandidate text ['\n', '\n'] (last_match_end text s k) = some p := by
    rw [snapCandidate, hfp]
    show (if p < last_match_end text s k + 100 then some p else none) = some p
    rw [if_pos hpw]
  rw [chunk_end, snapEnd, hc]

/-- Claim C4: hard-cut fallback. When no paragraph break and no sentence
break starts within 100 characters of the raw word-count cutoff, the chunk
end is exactly the raw cutoff. -/
theorem hard_cut_fallback (text : List Char) (s k : Nat)
    (h : ∀ j < last_match_end text s k + 100, last_match_end text s k ≤ j →
      occursAt text ['\n', '\n'] j = false ∧ occursAt text ['.', ' '] j = false) :
    chunk_end text s k = last_match_end text s k := by
  have hcp : snapCandidate text ['\n', '\n'] (last_match_end text s k) = none := by
    rw [snapCandidate]
    cases hf : findFrom text ['\n', '\n'] (last_match_end text s k) with
    | none => rfl
    | some p =>
        obtain ⟨h1, h2, _⟩ := findFrom_some text _ _ p hf
        show (if p < last_match_end text s k + 100 then some p else none) = none
        rw [if_neg ?hwp]
        case hwp =>
          intro hw
          have := (h p hw h1).1
          rw [h2] at this
          cases this
  have hcd : snapCandidate text ['.', ' '] (last_match_end text s k) = none := by
    rw [snapCandidate]
    cases hf : findFrom text ['.', ' '] (last_match_end text s k) with
    | none => rfl
    | some p =>
        obtain ⟨h1, h2, _⟩ := findFrom_some text _ _ p hf
        show (if p < last_match_end text s k + 100 then some p else none) = none
        rw [if_neg ?hwd]
        case hwd =>
          intro hw
          have := (h p hw h1).2
          rw [h2] at this
          cases this
  rw [chunk_end, snapEnd, hcp, hcd]

/-- Claim C5: segmenter progress. The chunk end never lies before the start
offset, and it equals the start offset only in the terminal situation where
zero word tokens were found at or after the start, so that the resulting
span is empty after whitespace trimming. -/
theorem segmenter_progress (text : List Char) (s k : Nat) :
    s ≤ chunk_end text s k ∧
    (chunk_end text s k = s →
      words_in_chunk text s k = 0 ∧ pyStrip (pySlice text s (chunk_end text s k)) = []) := by
  refine ⟨chunk_end_ge text s k, fun he => ?_⟩
  have hw : words_in_chunk text s k = 0 := by
    by_contra hne
    have := chunk_end_gt text s k hne
    omega
  refine ⟨hw, ?_⟩
  rw [he]
  show pyStrip (pySlice text s s) = []
  rw [pySlice, Nat.sub_self]
  rfl

/-- Claim C6: schedule coverage. Over a whole run, the untrimmed chunk spans
are contiguous and non-overlapping, each starting exactly where the previous
one ended, and concatenating them in order reconstructs exactly the slice of
the document between the initial and final cursor. -/
theorem schedule_coverage (text : List Char) (target s d : Nat) :
    chainFrom s (split_book_chunks text target s d) ∧
    ((split_book_chunks text target s d).map (fun c => pySlice text c.start c.stop)).flatten
      = pySlice text s (endPos s (split_book_chunks text target s d)) :=
  ⟨chunks_chain text target s d,
   chunks_cover_aux text target (text.length - s) s d (Nat.le_refl _)⟩

/-- Claim C7: date monotonicity. The day index assigned to chunk `i` equals
the day index of chunk `0` plus exactly `i`, and consecutive chunks carry
day indices that differ by exactly one. -/
theorem date_monotonicity (text : List Char) (target s d i : Nat)
    (hi : i < (split_book_chunks text target s d).length) :
    ((split_book_chunks text target s d).getD i ⟨0, 0, 0⟩).date
      = ((split_book_chunks text target s d).getD 0 ⟨0, 0, 0⟩).date + i ∧
    ∀ hj : i + 1 < (split_book_chunks text target s d).length,
      ((split_book_chunks text target s d).getD (i + 1) ⟨0, 0, 0⟩).date
        = ((split_book_chunks text target s d).getD i ⟨0, 0, 0⟩).date + 1 := by
  have h0 : ((split_book_chunks text target s d).getD 0 ⟨0, 0, 0⟩).date = d + 0 :=
    chunks_date_aux text target (text.length - s) s d 0 (Nat.le_refl _) (by omega)
  have hii : ((split_book_chunks text target s d).getD i ⟨0, 0, 0⟩).date = d + i :=
    chunks_date_aux text target (text.length - s) s d i (Nat.le_refl _) hi
  constructor
  · omega
  · intro hj
    have hjj : ((split_book_chunks text target s d).getD (i + 1) ⟨0, 0, 0⟩).date = d + (i + 1) :=
      chunks_date_aux text target (text.length - s) s d (i + 1) (Nat.le_refl _) hj
    omega

/-- Claim C8: scheduler termination. For every document and positive target,
the loop terminates within `text.length + 1` iterations; every produced chunk
strictly advances the cursor; and at the final cursor one of the three exit
conditions holds: the cursor reached the document length, zero word tokens
remain, or the next trimmed chunk would be empty. -/
theorem scheduler_termination (text : List Char) (target s d : Nat) (ht : 0 < target) :
    (splitLoop text target (text.length + 1) s d).isSome = true ∧
    (∀ c ∈ split_book_chunks text target s d, c.start < c.stop) ∧
    (¬ endPos s (split_book_chunks text target s d) < text.length
      ∨ words_in_chunk text (endPos s (split_book_chunks text target s d)) target = 0
      ∨ pyStrip (pySlice text (endPos s (split_book_chunks text target s d))
          (chunk_end text (endPos s (split_book_chunks text target s d)) target)) = []) :=
  ⟨splitLoop_isSome text target (text.length + 1) s d (by omega),
   chunks_start_lt_stop_aux text target (text.length - s) s d (Nat.le_refl _),
   chunks_stop_cond_aux text target (text.length - s) s d (Nat.le_refl _)⟩

/-- Claim C9: empty-document guard. On the empty document the scheduler
produces zero chunks, the reported chunk count is zero, and the reported
average chunk word count is zero, with no division by zero. -/
theorem empty_document_guard (target d : Nat) :
    split_book_chunks [] target 0 d = [] ∧
    count_words [] = 0 ∧
    avg_chunk_words (count_words []) (split_book_chunks [] target 0 d).length = 0 := by
  have h : split_book_chunks ([] : List Char) target 0 d = [] := by
    rw [split_book_chunks_eq]
    simp
  refine ⟨h, rfl, ?_⟩
  rw [h]
  rfl

/-- Claim C10: the implemented snapping, an unbounded forward search for the
first occurrence followed by an after-the-fact window check, yields the same
chunk end as a search bounded upfront to the 100-character window, for every
text, start offset and target. -/
theorem search_strategy_equivalence (text : List Char) (s k : Nat) :
    chunk_end text s k = chunk_end_bounded text s k := by
  rw [chunk_end, chunk_end_bounded]
  exact snapEnd_eq_bounded text (last_match_end text s k)

/-- Claim C2, amended: the normalizer is idempotent on every input whose
one-pass output contains none of the markers; in general a second pass can
differ, since deleting a marker can splice the surrounding text into a new
marker occurrence. -/
theorem normalizer_conditional_idempotence (t : List Char)
    (h : ∀ m ∈ markerStrings, containsSub m (clean_text t) = false) :
    clean_text (clean_text t) = clean_text t :=
  clean_text_fixed (clean_text t) h

/-! ### Concrete counterexamples and witnesses -/

/-- Counterexample to claim C1: on the spec's example text with target 3 and
start 0 the raw cutoff does fall immediately after "gamma" (offset 16), but
the first chunk's trimmed text is not "Alpha beta gamma.": the paragraph
break at offset 32 also lies within the 100-character window and outranks the
nearer sentence break. -/
theorem c1_counterexample :
    ¬ (last_match_end exText 0 3 = 16 ∧
       pyStrip (pySlice exText 0 (chunk_end exText 0 3)) = "Alpha beta gamma.".data) := by
  decide

/-- Amended claim C1: on the spec's example text with target 3 and start 0,
the raw cutoff falls immediately after "gamma" (offset 16), the paragraph
break within the window takes precedence, the chunk ends at offset 34, and
the first chunk's trimmed text is "Alpha beta gamma. Delta epsilon.". -/
theorem c1_amended :
    last_match_end exText 0 3 = 16 ∧
    chunk_end exText 0 3 = 34 ∧
    (split_book_chunks exText 3 0 0).getD 0 ⟨0, 0, 0⟩ = ⟨0, 34, 0⟩ ∧
    pyStrip (pySlice exText 0 (chunk_end exText 0 3))
      = "Alpha beta gamma. Delta epsilon.".data := by
  decide

/-- Counterexample to claim C2: `clean_text` is not idempotent. On the input
"[[1]1]" the first pass deletes the inner "[1]" and splices the remaining
characters into a fresh "[1]", which only a second pass removes. -/
theorem c2_counterexample :
    clean_text (clean_text "[[1]1]".data) ≠ clean_text "[[1]1]".data := by
  rw [clean_text_bracket_pair, clean_text_bracket1]
  decide

/-- Witness for the amended claim C2 at the empty input. -/
theorem normalizer_conditional_idempotence_witness :
    (∀ m ∈ markerStrings, containsSub m (clean_text ([] : List Char)) = false) ∧
    clean_text (clean_text ([] : List Char)) = clean_text ([] : List Char) :=
  ⟨fun m hm => by rw [clean_text_nil]; exact containsSub_marker_nil m hm,
   normalizer_conditional_idempotence []
     (fun m hm => by rw [clean_text_nil]; exact containsSub_marker_nil m hm)⟩

/-- Witness for claim C3 on the spec's example text: the paragraph break at
offset 32 and the sentence break at offset 16 both lie in the window after
the raw cutoff 16, and the chunk end snaps to the paragraph break. -/
theorem boundary_precedence_witness :
    (∃ j, last_match_end exText 0 3 ≤ j ∧ j < last_match_end exText 0 3 + 100 ∧
      occursAt exText ['\n', '\n'] j = true) ∧
    (∃ j, last_match_end exText 0 3 ≤ j ∧ j < last_match_end exText 0 3 + 100 ∧
      occursAt exText ['.', ' '] j = true) ∧
    (∃ p, findFrom exText ['\n', '\n'] (last_match_end exText 0 3) = some p ∧
      p < last_match_end exText 0 3 + 100 ∧ chunk_end exText 0 3 = p + 2) :=
  ⟨⟨32, by decide, by decide, by decide⟩,
   ⟨16, by decide, by decide, by decide⟩,
   boundary_precedence exText 0 3
     ⟨32, by decide, by decide, by decide⟩
     ⟨16, by decide, by decide, by decide⟩⟩

/-- Witness for claim C4 on a text with no break at all: with target 2 the
raw cutoff is 7 and the chunk end is exactly 7. -/
theorem hard_cut_fallback_witness :
    (∀ j < last_match_end plainText 0 2 + 100, last_match_end plainText 0 2 ≤ j →
      occursAt plainText ['\n', '\n'] j = false ∧ occursAt plainText ['.', ' '] j = false) ∧
    chunk_end plainText 0 2 = last_match_end plainText 0 2 :=
  ⟨by decide, hard_cut_fallback plainText 0 2 (by decide)⟩

/-- Witness for claim C5 on a text consisting only of dots: the chunk end
stays at the start offset and indeed zero word tokens were found there. -/
theorem segmenter_progress_witness :
    0 ≤ chunk_end dotsText 0 3 ∧
    (chunk_end dotsText 0 3 = 0 →
      words_in_chunk dotsText 0 3 = 0 ∧
        pyStrip (pySlice dotsText 0 (chunk_end dotsText 0 3)) = []) :=
  segmenter_progress dotsText 0 3

/-- Witness for claim C7 on the spec's example text, which splits into three
chunks: chunk 2 carries day index of chunk 0 plus 2. -/
theorem date_monotonicity_witness :
    2 < (split_book_chunks exText 3 0 0).length ∧
    (((split_book_chunks exText 3 0 0).getD 2 ⟨0, 0, 0⟩).date
      = ((split_book_chunks exText 3 0 0).getD 0 ⟨0, 0, 0⟩).date + 2 ∧
    ∀ hj : 2 + 1 < (split_book_chunks exText 3 0 0).length,
      ((split_book_chunks exText 3 0 0).getD (2 + 1) ⟨0, 0, 0⟩).date
        = ((split_book_chunks exText 3 0 0).getD 2 ⟨0, 0, 0⟩).date + 1) :=
  ⟨by decide, date_monotonicity exText 3 0 0 2 (by decide)⟩

/-- Witness for claim C8 on the spec's example text with target 3. -/
theorem scheduler_termination_witness :
    0 < 3 ∧
    ((splitLoop exText 3 (exText.length + 1) 0 0).isSome = true ∧
    (∀ c ∈ split_book_chunks exText 3 0 0, c.start < c.stop) ∧
    (¬ endPos 0 (split_book_chunks exText 3 0 0) < exText.length
      ∨ words_in_chunk exText (endPos 0 (split_book_chunks exText 3 0 0)) 3 = 0
      ∨ pyStrip (pySlice exText (endPos 0 (split_book_chunks exText 3 0 0))
          (chunk_end exText (endPos 0 (split_book_chunks exText 3 0 0)) 3)) = [])) :=
  ⟨by decide, scheduler_termination exText 3 0 0 (by decide)⟩
